/-
Verification of the ANN-index design specified in spec.md against the
repository. The repository source (src/hsnw.py) is a driver script that
creates an hnswlib index (space = cosine, dim = 128), inserts 10000
random rows with add_items, sets ef = 50 and queries k = 5; the index
implementation itself is not part of the repository source, so the
index operations below are modelled from the spec (sections 3, 4 and 6),
at the contract level the spec states for each component.
-/
import Mathlib

namespace HnswSpec

/-- Modelled from the spec: error taxonomy of section 7 of the design
(the index implementation is not in the repository source; errors are
the local, synchronous failure conditions the spec names). -/
inductive IndexError where
  | DimensionMismatch
  | CapacityExceeded
  | DuplicateLabel
  | NotFound
  | EmptyIndex
  | CorruptData
deriving DecidableEq, Repr

/-- Modelled from the spec: the observable state of the Index Façade
(sections 3 and 4.2). The graph layers and entry point influence only
which candidates a search visits; at the contract level of sections
4.2, 4.4 and 4.6 the state that determines results is the vector
store (dense storage keyed by internal sequential id — position in
`vectors`), the parameters fixed at creation (`dim`, `maxElements`,
`efConstruction`, `M`), the mutable `efSearch`, and the tombstone set
`deleted`. External labels are the array row indices (spec section 3,
External Label), so label i is the vector at position i. -/
structure Index where
  dim : Nat
  maxElements : Nat
  efConstruction : Nat
  M : Nat
  efSearch : Nat
  vectors : List (List ℚ)
  deleted : List Nat
deriving DecidableEq, Repr

/-- Modelled from the spec: a pluggable distance function over two
fixed-length vectors (spec section 4.1). -/
abbrev Metric := List ℚ → List ℚ → ℚ

/-- Modelled from the spec: squared Euclidean distance, one of the three
metrics the spec lists (section 2, Metric component). -/
def sqEuclidean (u v : List ℚ) : ℚ :=
  (List.zipWith (fun a b => (a - b) ^ 2) u v).sum

/-- Number of stored nodes (live or tombstoned); internal ids are
`[0, count)`. -/
def Index.count (p : Index) : Nat := p.vectors.length

/-- Internal ids of live (non-tombstoned) nodes. -/
def Index.liveIds (p : Index) : List Nat :=
  (List.range p.count).filter (fun i => decide (i ∉ p.deleted))

/-- Modelled from the spec: `create`/`init_index` — a fresh index with
capacity, construction parameters and dimension fixed at creation
(spec section 6); hnswlib's default `ef_search` is left at 10. -/
def init_index (dim maxElements efConstruction M : Nat) : Index :=
  ⟨dim, maxElements, efConstruction, M, 10, [], []⟩

/-- Modelled from the spec: a single insertion (spec sections 4.2, 4.5).
The façade validates the dimension, then rejects if capacity is
exhausted (`store` beyond capacity fails with `CapacityExceeded`);
otherwise the vector is appended at the next internal id. Validation
precedes any mutation, so a failure publishes no partial state. -/
def add_item (p : Index) (v : List ℚ) : Except IndexError Index :=
  if v.length ≠ p.dim then .error .DimensionMismatch
  else if p.maxElements ≤ p.count then .error .CapacityExceeded
  else .ok { p with vectors := p.vectors ++ [v] }

/-- Modelled from the spec: bulk `add_items` without explicit labels
inserts the rows one at a time in order, each receiving the next
internal id as its label; the first failing row aborts the batch. -/
def add_items (p : Index) (rows : List (List ℚ)) : Except IndexError Index :=
  match rows with
  | [] => .ok p
  | v :: rest =>
    match add_item p v with
    | .ok q => add_items q rest
    | .error e => .error e

/-- Modelled from the spec: `set_ef_search` (spec section 6), mutable
post-construction. -/
def set_ef (p : Index) (e : Nat) : Index := { p with efSearch := e }

/-- Modelled from the spec: `mark_deleted` (spec sections 4.2 and 6) —
adds the label's node to the tombstone set, fails with `NotFound` if
the label is unmapped; the node stays in the store. -/
def mark_deleted (p : Index) (label : Nat) : Except IndexError Index :=
  if label < p.count then
    .ok { p with deleted := if label ∈ p.deleted then p.deleted else label :: p.deleted }
  else .error .NotFound

/-- Result ordering of a query: distance ascending, ties broken by the
smaller internal id (spec section 4.6). -/
def resOrder (a b : Nat × ℚ) : Prop :=
  a.2 < b.2 ∨ (a.2 = b.2 ∧ a.1 ≤ b.1)

instance : DecidableRel resOrder := fun a b => by
  unfold resOrder; infer_instance

instance : IsTotal (Nat × ℚ) resOrder where
  total a b := by
    unfold resOrder
    rcases lt_trichotomy a.2 b.2 with h | h | h
    · exact Or.inl (Or.inl h)
    · rcases Nat.le_total a.1 b.1 with h1 | h1
      · exact Or.inl (Or.inr ⟨h, h1⟩)
      · exact Or.inr (Or.inr ⟨h.symm, h1⟩)
    · exact Or.inr (Or.inl h)

instance : IsTrans (Nat × ℚ) resOrder where
  trans a b c hab hbc := by
    unfold resOrder at *
    rcases hab with h1 | ⟨h1, h1'⟩
    · rcases hbc with h2 | ⟨h2, _⟩
      · exact Or.inl (h1.trans h2)
      · exact Or.inl (h2 ▸ h1)
    · rcases hbc with h2 | ⟨h2, h2'⟩
      · exact Or.inl (h1 ▸ h2)
      · exact Or.inr ⟨h1.trans h2, h1'.trans h2'⟩

/-- Modelled from the spec: every node ranked by distance to the query,
distance ascending with ties by smaller internal id. This is the
exact-oracle idealization of the Candidate Search Engine's output
("the `ef` best candidates found, sorted ascending by distance", spec
section 4.4), used for the façade-level claims about validation,
ordering, filtering and persistence; the width-sensitive beam search
itself, whose results depend on the graph topology and on `ef`, is
modelled faithfully by `search_layer` below. -/
def rankAll (d : Metric) (p : Index) (v : List ℚ) : List (Nat × ℚ) :=
  List.insertionSort resOrder
    ((List.range p.count).map (fun i => (i, d v (p.vectors.getD i []))))

/-- Whether a ranked entry refers to a live (non-tombstoned) node. -/
def isLive (p : Index) (e : Nat × ℚ) : Bool := decide (e.1 ∉ p.deleted)

/-- Modelled from the spec: the layer-0 search and result assembly of a
query (spec section 4.6) — take the `max(ef_search, k)` best
candidates, filter out tombstoned nodes, and if fewer than `k` live
results remain, re-expand (keep expanding the frontier until `k` live
results are found or the graph is exhausted). Built on the exact-oracle
`rankAll`, so it idealizes away the approximation error of the beam
search; the ef-dependent behaviour is studied on `search_layer`. -/
def queryCandidates (d : Metric) (p : Index) (v : List ℚ) (ef k : Nat) :
    List (Nat × ℚ) :=
  let cand := (rankAll d p v).take (max ef k)
  let live := cand.filter (isLive p)
  if live.length < k then ((rankAll d p v).filter (isLive p)).take k
  else live.take k

/-- Modelled from the spec: `query(vector, k)` (spec section 4.6).
Fails with `DimensionMismatch` if the query vector's length disagrees
with the index dimension, `EmptyIndex` if no live node exists;
otherwise returns at most `k` pairs (label, distance) — labels are the
internal ids, which coincide with the external row-index labels —
sorted by distance ascending, ties by smaller internal id. -/
def knn_query (d : Metric) (p : Index) (v : List ℚ) (k : Nat) :
    Except IndexError (List (Nat × ℚ)) :=
  if v.length ≠ p.dim then .error .DimensionMismatch
  else if p.liveIds.length = 0 then .error .EmptyIndex
  else .ok (queryCandidates d p v p.efSearch k)

/-- State visible to the caller after an operation: the new index on
success, the untouched previous index on failure (the all-or-nothing
discipline of spec section 7). -/
def stateAfter (r : Except IndexError Index) (p : Index) : Index :=
  match r with
  | .ok q => q
  | .error _ => p

/-- Modelled from the spec: the saved file layout of section 6 — header
(parameters, count), a vector block (all vectors flattened, count × dim
entries), the tombstone set, then the external-label table (here the
identity row-index mapping, represented by the label list). -/
structure SaveFile where
  hdrDim : Nat
  hdrMax : Nat
  hdrEfC : Nat
  hdrM : Nat
  hdrEf : Nat
  hdrCount : Nat
  vectorBlock : List ℚ
  tombstones : List Nat
  labelTable : List Nat
deriving DecidableEq, Repr

/-- Modelled from the spec: `save` — serializes parameters, vector
count, all vectors, the tombstone set and the label table (spec
sections 4.7 and 6). -/
def save_index (p : Index) : SaveFile :=
  ⟨p.dim, p.maxElements, p.efConstruction, p.M, p.efSearch, p.count,
   p.vectors.flatten, p.deleted, List.range p.count⟩

/-- Splits a flat vector block back into `n` vectors of length `d`;
`none` when the block's length does not match `n * d`. -/
def chunkVecs : Nat → Nat → List ℚ → Option (List (List ℚ))
  | 0, _, [] => some []
  | 0, _, _ :: _ => none
  | n + 1, d, l =>
    if d ≤ l.length then
      match chunkVecs n d (l.drop d) with
      | some rest => some (l.take d :: rest)
      | none => none
    else none

/-- Modelled from the spec: `load` — deserialization rebuilds the index
and must reject corrupted length fields with `CorruptData` rather than
silently truncating (spec section 4.7): the vector block must split
into exactly `count` vectors of length `dim`, the count must not exceed
the stored capacity, every tombstone must name a stored node, and the
label table must be the identity row-index mapping. -/
def load_index (f : SaveFile) : Except IndexError Index :=
  match chunkVecs f.hdrCount f.hdrDim f.vectorBlock with
  | none => .error .CorruptData
  | some vs =>
    if f.hdrCount ≤ f.hdrMax ∧ (∀ t ∈ f.tombstones, t < f.hdrCount) ∧
        f.labelTable = List.range f.hdrCount then
      .ok ⟨f.hdrDim, f.hdrMax, f.hdrEfC, f.hdrM, f.hdrEf, vs, f.tombstones⟩
    else .error .CorruptData

/-- Well-formedness invariants of an index reachable through the façade
(spec section 3): every stored vector has the index dimension, the node
count never exceeds capacity, tombstones name stored nodes. -/
def WellFormed (p : Index) : Prop :=
  (∀ v ∈ p.vectors, v.length = p.dim) ∧ p.count ≤ p.maxElements ∧
    ∀ t ∈ p.deleted, t < p.count

instance (p : Index) : Decidable (WellFormed p) := by
  unfold WellFormed; infer_instance

/-- Definition following the claim's words (for the refinement claim
about bulk insertion): inserting an n-row batch at once — if every row
has the index dimension and the batch fits in the remaining capacity,
all rows are appended in order, row `i` of a fresh index receiving
label `i`; otherwise the batch fails. -/
def add_items_atOnce (p : Index) (rows : List (List ℚ)) :
    Except IndexError Index :=
  if ∀ r ∈ rows, r.length = p.dim then
    if p.count + rows.length ≤ p.maxElements then
      .ok { p with vectors := p.vectors ++ rows }
    else .error .CapacityExceeded
  else .error .DimensionMismatch

/-- True-positive overlap of a result list with a reference list:
how many returned labels appear among the reference labels. -/
def overlap (res reference : List (Nat × ℚ)) : Nat :=
  (res.filter (fun e => decide (e.1 ∈ reference.map Prod.fst))).length

/-- Sum of squares of a real vector (the squared Euclidean norm). -/
noncomputable def sumSq (u : List ℝ) : ℝ := (u.map (fun a => a ^ 2)).sum

/-- Dot product of two real vectors. -/
noncomputable def dotList (u v : List ℝ) : ℝ := (List.zipWith (· * ·) u v).sum

/-- Cosine similarity of two real vectors: the dot product divided by
the product of the Euclidean norms. -/
noncomputable def cosine_similarity (u v : List ℝ) : ℝ :=
  dotList u v / (Real.sqrt (sumSq u) * Real.sqrt (sumSq v))

/-- Modelled from the spec: cosine distance (spec section 4.1) —
`1 - cosine_similarity`, except that a zero-vector input (zero squared
norm) produces the defined sentinel distance 1 instead of dividing by
a zero norm. -/
noncomputable def cosine_distance (u v : List ℝ) : ℝ :=
  if sumSq u = 0 ∨ sumSq v = 0 then 1
  else 1 - cosine_similarity u v

/-- Strict version of the result ordering: distance strictly smaller,
or equal distance and strictly smaller internal id. -/
def strictResOrder (a b : Nat × ℚ) : Prop :=
  a.2 < b.2 ∨ (a.2 = b.2 ∧ a.1 < b.1)

instance : IsAntisymm (Nat × ℚ) resOrder where
  antisymm a b hab hba := by
    unfold resOrder at hab hba
    rcases hab with h1 | ⟨h1, h1'⟩ <;> rcases hba with h2 | ⟨h2, h2'⟩
    · exact absurd h2 (lt_asymm h1)
    · exact absurd (h2 ▸ h1) (lt_irrefl _)
    · exact absurd (h1 ▸ h2) (lt_irrefl _)
    · exact Prod.ext (Nat.le_antisymm h1' h2') h1

/-- Modelled from the spec: the state of an index whose layer-0 graph is
explicit (spec section 3, Graph Layers) — per-node adjacency lists over
internal ids (position `i` holds the neighbors of node `i`), an entry
point, the stored vectors and the mutable `ef_search`. This is the
faithful counterpart of the contract-level `Index`, used to study the
Candidate Search Engine itself (spec section 4.4), whose results depend
on the graph topology and on the width `ef`. Tombstones are omitted
here: deletion is orthogonal to the search-width behaviour. -/
structure GraphIndex where
  dim : Nat
  efSearch : Nat
  vectors : List (List ℚ)
  neighbors : List (List Nat)
  entry : Nat
deriving DecidableEq, Repr

/-- Number of stored nodes of the explicit-graph index. -/
def GraphIndex.count (g : GraphIndex) : Nat := g.vectors.length

/-- Vector stored at internal id `i`. -/
def GraphIndex.vecOf (g : GraphIndex) (i : Nat) : List ℚ := g.vectors.getD i []

/-- Layer-0 neighbor list of node `v` (empty if `v` is absent, spec
section 4.3). -/
def GraphIndex.nbrs (g : GraphIndex) (v : Nat) : List Nat :=
  g.neighbors.getD v []

/-- Distance of the current worst (farthest) retained candidate: the
last entry of the sorted retained list. -/
def worstOf (w : List (Nat × ℚ)) : ℚ := ((w.getLast?).map Prod.snd).getD 0

/-- Modelled from the spec (section 4.4): processing of one neighbor
during expansion — skip it if already visited, otherwise mark it
visited and admit it into the frontier and the retained set if the
retained set has not yet reached size `ef` or the neighbor is closer
than the current worst retained element; the retained set stays sorted
by (distance, id) and capped at `ef`. The state is
(frontier, retained, visited). -/
def admitOne (d : Metric) (g : GraphIndex) (q : List ℚ) (ef : Nat)
    (st : List (Nat × ℚ) × List (Nat × ℚ) × List Nat) (n : Nat) :
    List (Nat × ℚ) × List (Nat × ℚ) × List Nat :=
  if n ∈ st.2.2 then st
  else
    let dn := d q (g.vecOf n)
    if st.2.1.length < ef ∨ dn < worstOf st.2.1 then
      (List.orderedInsert resOrder (n, dn) st.1,
       (List.orderedInsert resOrder (n, dn) st.2.1).take ef,
       n :: st.2.2)
    else (st.1, st.2.1, n :: st.2.2)

/-- Modelled from the spec (section 4.4): the greedy beam-search loop —
repeatedly pop the nearest unexplored frontier element; stop early when
the retained set is full and the nearest frontier element is farther
than the current worst retained element; otherwise expand the popped
node's neighbors through `admitOne`. Fuel bounds the number of pops
(each pop consumes one frontier element and the visited check bounds
admissions by the node count). -/
def searchLoop (d : Metric) (g : GraphIndex) (q : List ℚ) (ef : Nat) :
    Nat → List (Nat × ℚ) → List (Nat × ℚ) → List Nat → List (Nat × ℚ)
  | 0, _, w, _ => w
  | _ + 1, [], w, _ => w
  | fuel + 1, cand :: crest, w, vis =>
    if w.length = ef ∧ worstOf w < cand.2 then w
    else
      let st := (g.nbrs cand.1).foldl (admitOne d g q ef) (crest, w, vis)
      searchLoop d g q ef fuel st.1 st.2.1 st.2.2

/-- Modelled from the spec (section 4.4): the Candidate Search Engine at
one layer — start from the entry node and run the beam-search loop;
returns the `ef` best candidates found, sorted ascending by distance. -/
def search_layer (d : Metric) (g : GraphIndex) (q : List ℚ) (ef : Nat) :
    List (Nat × ℚ) :=
  searchLoop d g q ef (g.count + 1)
    [(g.entry, d q (g.vecOf g.entry))]
    ([(g.entry, d q (g.vecOf g.entry))].take ef)
    [g.entry]

/-- Modelled from the spec: `set_ef_search` on the explicit-graph
index. -/
def graph_set_ef (g : GraphIndex) (e : Nat) : GraphIndex :=
  { g with efSearch := e }

/-- Modelled from the spec (section 4.6): a query against the explicit
graph — run the layer-0 search with width `max(ef_search, k)` and
return the `k` closest candidates found. -/
def graph_query (d : Metric) (g : GraphIndex) (q : List ℚ) (k : Nat) :
    List (Nat × ℚ) :=
  (search_layer d g q (max g.efSearch k)).take k

/-- Exact ranking of every stored node by distance ascending, ties by
smaller internal id: the brute-force reference recall is measured
against. -/
def graph_rankAll (d : Metric) (g : GraphIndex) (q : List ℚ) :
    List (Nat × ℚ) :=
  List.insertionSort resOrder
    ((List.range g.count).map (fun i => (i, d q (g.vecOf i))))

/-- Brute-force top-k over the explicit-graph index. -/
def graph_bruteTopK (d : Metric) (g : GraphIndex) (q : List ℚ) (k : Nat) :
    List (Nat × ℚ) :=
  (graph_rankAll d g q).take k

/-- Well-formedness of the explicit graph: the entry point is a stored
node and every adjacency entry names a stored node. -/
def GraphWF (g : GraphIndex) : Prop :=
  g.entry < g.count ∧ ∀ l ∈ g.neighbors, ∀ n ∈ l, n < g.count

instance (g : GraphIndex) : Decidable (GraphWF g) := by
  unfold GraphWF; infer_instance

/-- Reachability along layer-0 edges from the entry point. -/
inductive Reaches (g : GraphIndex) : Nat → Prop where
  | entry : Reaches g g.entry
  | step : ∀ {a b}, Reaches g a → b ∈ g.nbrs a → Reaches g b

/-- Invariant of the beam-search loop state (frontier `c`, retained `w`,
visited `vis`) maintained at exhaustive width: the visited list is
duplicate-free and names stored nodes, the retained list holds exactly
the visited nodes with their true distances, sorted, and every frontier
element is visited. -/
structure CoreInv (d : Metric) (g : GraphIndex) (q : List ℚ)
    (c w : List (Nat × ℚ)) (vis : List Nat) : Prop where
  nodup_vis : vis.Nodup
  vis_lt : ∀ i ∈ vis, i < g.count
  w_ids : List.Perm (w.map Prod.fst) vis
  w_dist : ∀ e ∈ w, e.2 = d q (g.vecOf e.1)
  w_sorted : List.Sorted resOrder w
  c_ids : ∀ e ∈ c, e.1 ∈ vis

/-- Postcondition of the exhaustive-width beam search: the returned list
is sorted with true distances, duplicate-free labels of stored nodes,
contains every visited node, and its label set is closed under graph
edges. -/
def SearchPost (d : Metric) (g : GraphIndex) (q : List ℚ)
    (vis : List Nat) (w : List (Nat × ℚ)) : Prop :=
  List.Sorted resOrder w ∧ (∀ e ∈ w, e.2 = d q (g.vecOf e.1)) ∧
    (w.map Prod.fst).Nodup ∧ (∀ i ∈ w.map Prod.fst, i < g.count) ∧
    (∀ v ∈ vis, v ∈ w.map Prod.fst) ∧
    (∀ v ∈ w.map Prod.fst, ∀ n ∈ g.nbrs v, n ∈ w.map Prod.fst)

/-- The six-node graph on which raising the search width lowers recall:
one-dimensional points 6, 6, 4, 8, 4, 5 at ids 0..5, symmetric
adjacency 0-4, 0-2, 1-2, 1-5, 3-4, entry point 0, initial
`ef_search` 2. -/
def exGraph : GraphIndex :=
  ⟨1, 2, [[6], [6], [4], [8], [4], [5]],
   [[4, 2], [2, 5], [0, 1], [4], [0, 3], [1]], 0⟩

theorem add_items_ok : ∀ (rows : List (List ℚ)) (p : Index),
    (∀ r ∈ rows, r.length = p.dim) →
    p.count + rows.length ≤ p.maxElements →
    add_items p rows = .ok { p with vectors := p.vectors ++ rows }
  | [], p, _, _ => by simp [add_items]
  | v :: rest, p, hdim, hcap => by
    have hv : v.length = p.dim := hdim v (List.mem_cons_self v rest)
    have hlt : ¬ p.maxElements ≤ p.count := by
      simp only [List.length_cons] at hcap; omega
    have step : add_item p v = .ok { p with vectors := p.vectors ++ [v] } := by
      simp [add_item, hv, hlt]
    have ihstep := add_items_ok rest { p with vectors := p.vectors ++ [v] }
      (fun r hr => hdim r (List.mem_cons_of_mem v hr))
      (by
        simp only [Index.count, List.length_append, List.length_cons,
          List.length_nil] at hcap ⊢
        omega)
    simp only [add_items, step, ihstep]
    simp [List.append_assoc]

theorem add_items_capacity : ∀ (rows : List (List ℚ)) (p : Index),
    (∀ r ∈ rows, r.length = p.dim) →
    p.count ≤ p.maxElements →
    p.maxElements < p.count + rows.length →
    add_items p rows = .error .CapacityExceeded
  | [], _, _, hle, hover => by
    simp only [List.length_nil, Nat.add_zero] at hover
    omega
  | v :: rest, p, hdim, hle, hover => by
    have hv : v.length = p.dim := hdim v (List.mem_cons_self v rest)
    by_cases hfull : p.maxElements ≤ p.count
    · have : add_item p v = .error .CapacityExceeded := by
        simp [add_item, hv, hfull]
      simp [add_items, this]
    · have step : add_item p v = .ok { p with vectors := p.vectors ++ [v] } := by
        simp [add_item, hv, hfull]
      have ihstep := add_items_capacity rest { p with vectors := p.vectors ++ [v] }
        (fun r hr => hdim r (List.mem_cons_of_mem v hr))
        (by
          simp only [Index.count, List.length_append, List.length_cons,
            List.length_nil] at hfull ⊢
          omega)
        (by
          simp only [Index.count, List.length_append, List.length_cons,
            List.length_nil] at hover ⊢
          omega)
      simp [add_items, step, ihstep]

theorem queryCandidates_eq (d : Metric) (p : Index) (v : List ℚ) (ef k : Nat) :
    queryCandidates d p v ef k = ((rankAll d p v).filter (isLive p)).take k := by
  unfold queryCandidates
  by_cases h :
      (((rankAll d p v).take (max ef k)).filter (isLive p)).length < k
  · simp [h]
  · simp only [if_neg h]
    push_neg at h
    have hsplit : (rankAll d p v).filter (isLive p) =
        ((rankAll d p v).take (max ef k)).filter (isLive p) ++
          ((rankAll d p v).drop (max ef k)).filter (isLive p) := by
      rw [← List.filter_append, List.take_append_drop]
    rw [hsplit, List.take_append_of_le_length h]

theorem rankAll_perm (d : Metric) (p : Index) (v : List ℚ) :
    List.Perm (rankAll d p v)
      ((List.range p.count).map (fun i => (i, d v (p.vectors.getD i [])))) :=
  List.perm_insertionSort _ _

theorem rankAll_sorted (d : Metric) (p : Index) (v : List ℚ) :
    List.Sorted resOrder (rankAll d p v) :=
  List.sorted_insertionSort _ _

theorem rankAll_fst_nodup (d : Metric) (p : Index) (v : List ℚ) :
    ((rankAll d p v).map Prod.fst).Nodup := by
  have h1 : List.Perm ((rankAll d p v).map Prod.fst)
      (((List.range p.count).map
        (fun i => (i, d v (p.vectors.getD i [])))).map Prod.fst) :=
    (rankAll_perm d p v).map _
  have h2 : ((List.range p.count).map
      (fun i => (i, d v (p.vectors.getD i [])))).map Prod.fst =
      List.range p.count := by
    simp [List.map_map, Function.comp_def]
  rw [h2] at h1
  exact h1.nodup_iff.mpr (List.nodup_range _)

theorem rankAll_fst_lt (d : Metric) (p : Index) (v : List ℚ) :
    ∀ e ∈ rankAll d p v, e.1 < p.count := by
  intro e he
  have := (rankAll_perm d p v).mem_iff.mp he
  simp only [List.mem_map, List.mem_range] at this
  obtain ⟨i, hi, rfl⟩ := this
  exact hi

theorem filter_live_length (d : Metric) (p : Index) (v : List ℚ) :
    ((rankAll d p v).filter (isLive p)).length = p.liveIds.length := by
  have hperm := (rankAll_perm d p v).filter (isLive p)
  rw [hperm.length_eq, List.filter_map, List.length_map]
  rfl

theorem queryResult_sublist (d : Metric) (p : Index) (v : List ℚ) (k : Nat) :
    List.Sublist (((rankAll d p v).filter (isLive p)).take k)
      (rankAll d p v) :=
  (List.take_sublist _ _).trans (List.filter_sublist _)

theorem knn_query_ok (d : Metric) (p : Index) (v : List ℚ) (k : Nat)
    (hdim : v.length = p.dim) (hlive : p.liveIds.length ≠ 0) :
    knn_query d p v k = .ok (((rankAll d p v).filter (isLive p)).take k) := by
  unfold knn_query
  rw [if_neg (by simp [hdim]), if_neg hlive, queryCandidates_eq]

theorem knn_query_ok_inv (d : Metric) (p : Index) (v : List ℚ) (k : Nat)
    (r : List (Nat × ℚ)) (h : knn_query d p v k = .ok r) :
    r = ((rankAll d p v).filter (isLive p)).take k := by
  unfold knn_query at h
  by_cases h1 : v.length ≠ p.dim
  · simp [h1] at h
  · by_cases h2 : p.liveIds.length = 0
    · simp [h1, h2] at h
    · simp only [h1, h2, if_neg, if_false, queryCandidates_eq,
        Except.ok.injEq] at h
      exact h.symm

theorem queryResult_pairwise (d : Metric) (p : Index) (v : List ℚ) (k : Nat) :
    List.Pairwise strictResOrder
      (((rankAll d p v).filter (isLive p)).take k) := by
  have hs : List.Pairwise resOrder
      (((rankAll d p v).filter (isLive p)).take k) :=
    List.Pairwise.sublist (queryResult_sublist d p v k) (rankAll_sorted d p v)
  have hnd : ((((rankAll d p v).filter (isLive p)).take k).map Prod.fst).Nodup :=
    List.Nodup.sublist ((queryResult_sublist d p v k).map Prod.fst)
      (rankAll_fst_nodup d p v)
  have hne : List.Pairwise (fun a b : Nat × ℚ => a.1 ≠ b.1)
      (((rankAll d p v).filter (isLive p)).take k) :=
    (List.pairwise_map).mp hnd
  refine (hs.and hne).imp ?_
  rintro a b ⟨hr, hab⟩
  rcases hr with h | ⟨h1, h2⟩
  · exact Or.inl h
  · exact Or.inr ⟨h1, lt_of_le_of_ne h2 hab⟩

theorem queryResult_dist_mono (d : Metric) (p : Index) (v : List ℚ) (k : Nat) :
    List.Pairwise (fun a b : Nat × ℚ => a.2 ≤ b.2)
      (((rankAll d p v).filter (isLive p)).take k) := by
  refine (List.Pairwise.sublist (queryResult_sublist d p v k)
    (rankAll_sorted d p v)).imp ?_
  rintro a b (h | ⟨h, _⟩)
  · exact le_of_lt h
  · exact le_of_eq h

theorem chunkVecs_flatten : ∀ (vs : List (List ℚ)) (d : Nat),
    (∀ v ∈ vs, v.length = d) →
    chunkVecs vs.length d vs.flatten = some vs
  | [], _, _ => rfl
  | v :: rest, d, h => by
    have hv : v.length = d := h v (List.mem_cons_self v rest)
    have hd : d ≤ (v ++ rest.flatten).length := by
      simp only [List.length_append]
      omega
    have htake : (v ++ rest.flatten).take d = v := List.take_left' hv
    have hdrop : (v ++ rest.flatten).drop d = rest.flatten := List.drop_left' hv
    have ih := chunkVecs_flatten rest d
      (fun u hu => h u (List.mem_cons_of_mem v hu))
    simp only [List.length_cons, List.flatten_cons, chunkVecs, hd, if_pos,
      hdrop, ih, htake]

theorem load_save (p : Index) (h : WellFormed p) :
    load_index (save_index p) = .ok p := by
  obtain ⟨h1, h2, h3⟩ := h
  unfold load_index save_index
  simp only [Index.count, chunkVecs_flatten p.vectors p.dim h1]
  rw [if_pos ⟨h2, h3, trivial⟩]

theorem add_items_eq_atOnce (p : Index) (rows : List (List ℚ))
    (hdim : ∀ r ∈ rows, r.length = p.dim) (hle : p.count ≤ p.maxElements) :
    add_items p rows = add_items_atOnce p rows := by
  unfold add_items_atOnce
  rw [if_pos hdim]
  by_cases hcap : p.count + rows.length ≤ p.maxElements
  · rw [if_pos hcap, add_items_ok rows p hdim hcap]
  · rw [if_neg hcap, add_items_capacity rows p hdim hle (by omega)]

deriving instance DecidableEq for Except

/-- C1: inserting a single vector `v` into a fresh index and immediately
querying `query(v, 1)` returns exactly `v`'s own label (0, the first
row index) at distance 0, for any metric under which a vector is at
distance 0 from itself. -/
theorem C1_self_query (d : Metric) (dim maxE efC M : Nat) (v : List ℚ)
    (hdim : v.length = dim) (hmax : 0 < maxE) (hd : d v v = 0) :
    ∃ q, add_item (init_index dim maxE efC M) v = .ok q ∧
      knn_query d q v 1 = .ok [(0, 0)] := by
  have hstep : add_item (init_index dim maxE efC M) v =
      .ok ⟨dim, maxE, efC, M, 10, [v], []⟩ := by
    unfold add_item init_index
    rw [if_neg (by simpa using hdim),
      if_neg (by simp only [Index.count, List.length_nil]; omega)]
    rfl
  refine ⟨_, hstep, ?_⟩
  have hq : knn_query d ⟨dim, maxE, efC, M, 10, [v], []⟩ v 1 =
      .ok (((rankAll d ⟨dim, maxE, efC, M, 10, [v], []⟩ v).filter
        (isLive ⟨dim, maxE, efC, M, 10, [v], []⟩)).take 1) :=
    knn_query_ok _ _ _ _ hdim (by simp [Index.liveIds, Index.count])
  rw [hq]
  have h2 : rankAll d ⟨dim, maxE, efC, M, 10, [v], []⟩ v = [(0, d v v)] := by
    simp [rankAll, Index.count]
  rw [h2, hd]
  simp [isLive]

/-- C1 witness: squared Euclidean metric, dimension 2, capacity 5, the
vector (1, 2). -/
theorem C1_self_query_witness :
    ∃ q, add_item (init_index 2 5 10 4) [1, 2] = .ok q ∧
      knn_query sqEuclidean q [1, 2] 1 = .ok [(0, 0)] :=
  C1_self_query sqEuclidean 2 5 10 4 [1, 2] (by decide) (by decide)
    (by norm_num [sqEuclidean])

/-- C2: every successful `query(vector, k)` returns at most `k` pairs,
pairwise ordered by strictly increasing distance or equal distance with
strictly increasing internal id (distance ascending, ties broken by the
smaller internal id). -/
theorem C2_query_sorted (d : Metric) (p : Index) (v : List ℚ) (k : Nat)
    (r : List (Nat × ℚ)) (h : knn_query d p v k = .ok r) :
    r.length ≤ k ∧ List.Pairwise strictResOrder r := by
  rw [knn_query_ok_inv d p v k r h]
  exact ⟨List.length_take_le k _, queryResult_pairwise d p v k⟩

/-- C2 witness: a two-element index under squared Euclidean distance,
queried with k = 2. -/
theorem C2_query_sorted_witness :
    knn_query sqEuclidean ⟨1, 5, 10, 4, 10, [[0], [1]], []⟩ [0] 2 =
      .ok [(0, 0), (1, 1)] ∧
    ([((0 : Nat), (0 : ℚ)), (1, 1)].length ≤ 2 ∧
      List.Pairwise strictResOrder [((0 : Nat), (0 : ℚ)), (1, 1)]) :=
  ⟨by norm_num [knn_query, queryCandidates, rankAll, Index.count,
     Index.liveIds, isLive, sqEuclidean, List.insertionSort,
     List.orderedInsert, resOrder, List.range_succ],
   C2_query_sorted sqEuclidean ⟨1, 5, 10, 4, 10, [[0], [1]], []⟩ [0] 2
     [(0, 0), (1, 1)]
     (by norm_num [knn_query, queryCandidates, rankAll, Index.count,
       Index.liveIds, isLive, sqEuclidean, List.insertionSort,
       List.orderedInsert, resOrder, List.range_succ])⟩

/-- C3: a fresh index of capacity `n` accepts exactly `n` insertions of
correctly-dimensioned vectors; the very next insertion fails with
`CapacityExceeded`. -/
theorem C3_capacity (dim n efC M : Nat) (rows : List (List ℚ))
    (w : List ℚ) (hlen : rows.length = n)
    (hdim : ∀ r ∈ rows, r.length = dim) (hw : w.length = dim) :
    ∃ q, add_items (init_index dim n efC M) rows = .ok q ∧
      q.count = n ∧ add_item q w = .error .CapacityExceeded := by
  have hok := add_items_ok rows (init_index dim n efC M) hdim
    (by simp [init_index, Index.count, hlen])
  refine ⟨_, hok, ?_, ?_⟩
  · simp [Index.count, init_index, hlen]
  · unfold add_item
    rw [if_neg (by simpa [init_index] using hw),
      if_pos (by simp [init_index, Index.count, hlen])]

/-- C3 witness: capacity 2, two one-dimensional vectors inserted, a
third rejected. -/
theorem C3_capacity_witness :
    ∃ q, add_items (init_index 1 2 10 4) [[0], [1]] = .ok q ∧
      q.count = 2 ∧ add_item q [5] = .error .CapacityExceeded :=
  C3_capacity 1 2 10 4 [[0], [1]] [5] (by decide) (by decide) (by decide)

/-- C4: inserting a vector whose length differs from the index dimension
fails with `DimensionMismatch`, and the state visible after the failure
is the unchanged index — same node count, no partial state. -/
theorem C4_dim_mismatch (p : Index) (v : List ℚ) (h : v.length ≠ p.dim) :
    add_item p v = .error .DimensionMismatch ∧
      stateAfter (add_item p v) p = p ∧
      (stateAfter (add_item p v) p).count = p.count := by
  have he : add_item p v = .error .DimensionMismatch := by
    unfold add_item
    rw [if_pos h]
  refine ⟨he, ?_, ?_⟩
  · rw [he]
    rfl
  · rw [he]
    rfl

/-- C4 witness: a dimension-2 index rejecting a length-1 vector. -/
theorem C4_dim_mismatch_witness :
    add_item ⟨2, 5, 10, 4, 10, [[1, 1]], []⟩ [7] =
        .error .DimensionMismatch ∧
      stateAfter (add_item ⟨2, 5, 10, 4, 10, [[1, 1]], []⟩ [7])
          ⟨2, 5, 10, 4, 10, [[1, 1]], []⟩ = ⟨2, 5, 10, 4, 10, [[1, 1]], []⟩ ∧
      (stateAfter (add_item ⟨2, 5, 10, 4, 10, [[1, 1]], []⟩ [7])
          ⟨2, 5, 10, 4, 10, [[1, 1]], []⟩).count =
        Index.count ⟨2, 5, 10, 4, 10, [[1, 1]], []⟩ :=
  C4_dim_mismatch ⟨2, 5, 10, 4, 10, [[1, 1]], []⟩ [7] (by decide)

/-- C5: saving a well-formed index and loading the file back yields an
index whose query results agree with the pre-save index on every metric,
query vector and k. -/
theorem C5_roundtrip (p : Index) (h : WellFormed p) :
    ∃ q, load_index (save_index p) = .ok q ∧
      ∀ (d : Metric) (v : List ℚ) (k : Nat),
        knn_query d q v k = knn_query d p v k :=
  ⟨p, load_save p h, fun _ _ _ => rfl⟩

/-- C5 witness: a small two-vector index with one tombstone
round-trips through save and load. -/
theorem C5_roundtrip_witness :
    ∃ q, load_index (save_index ⟨1, 3, 10, 4, 7, [[2], [3]], [1]⟩) = .ok q ∧
      ∀ (d : Metric) (v : List ℚ) (k : Nat),
        knn_query d q v k = knn_query d ⟨1, 3, 10, 4, 7, [[2], [3]], [1]⟩ v k :=
  C5_roundtrip ⟨1, 3, 10, 4, 7, [[2], [3]], [1]⟩ (by decide)

/-- C6: marking a mapped label deleted is idempotent (a second
application returns the same index unchanged); once a label is deleted
it never appears in any query result, whatever `ef_search` is set to;
and `mark_deleted` on an unmapped label fails with `NotFound`. -/
theorem C6_mark_deleted (d : Metric) (p : Index) (l : Nat) :
    (∀ q, mark_deleted p l = .ok q → mark_deleted q l = .ok q) ∧
    (∀ q, mark_deleted p l = .ok q →
      ∀ (e : Nat) (v : List ℚ) (k : Nat) (r : List (Nat × ℚ)),
        knn_query d (set_ef q e) v k = .ok r → ∀ x : ℚ, (l, x) ∉ r) ∧
    (p.count ≤ l → mark_deleted p l = .error .NotFound) := by
  have hdel : ∀ q, mark_deleted p l = .ok q → l ∈ q.deleted := by
    intro q hq
    unfold mark_deleted at hq
    by_cases hl : l < p.count
    · rw [if_pos hl] at hq
      injection hq with hq
      subst hq
      by_cases hin : l ∈ p.deleted <;> simp [hin]
    · rw [if_neg hl] at hq
      exact absurd hq (by simp)
  refine ⟨?_, ?_, ?_⟩
  · intro q hq
    have hmem := hdel q hq
    have hlp : l < p.count := by
      by_contra hl
      unfold mark_deleted at hq
      rw [if_neg hl] at hq
      exact absurd hq (by simp)
    have hcount : q.count = p.count := by
      unfold mark_deleted at hq
      rw [if_pos hlp] at hq
      injection hq with hq
      subst hq
      rfl
    have hl' : l < q.count := by
      rw [hcount]
      exact hlp
    unfold mark_deleted
    rw [if_pos hl']
    simp [hmem]
  · intro q hq e v k r hr x hx
    have hmem := hdel q hq
    rw [knn_query_ok_inv d (set_ef q e) v k r hr] at hx
    have hx2 := (List.mem_filter.mp (List.mem_of_mem_take hx)).2
    simp only [isLive, set_ef, decide_eq_true_eq] at hx2
    exact hx2 hmem
  · intro hge
    unfold mark_deleted
    rw [if_neg (by omega)]

/-- C6 witness: a two-element index, label 0 marked deleted twice, a
query that omits it, and `NotFound` on the unmapped label 5. -/
theorem C6_mark_deleted_witness :
    mark_deleted ⟨1, 3, 10, 4, 10, [[0], [1]], []⟩ 0 =
        .ok ⟨1, 3, 10, 4, 10, [[0], [1]], [0]⟩ ∧
      mark_deleted ⟨1, 3, 10, 4, 10, [[0], [1]], [0]⟩ 0 =
        .ok ⟨1, 3, 10, 4, 10, [[0], [1]], [0]⟩ ∧
      knn_query sqEuclidean (set_ef ⟨1, 3, 10, 4, 10, [[0], [1]], [0]⟩ 3)
          [0] 2 = .ok [(1, 1)] ∧
      ((0 : Nat), (0 : ℚ)) ∉ [((1 : Nat), (1 : ℚ))] ∧
      mark_deleted ⟨1, 3, 10, 4, 10, [[0], [1]], []⟩ 5 =
        .error .NotFound := by
  have hq : mark_deleted ⟨1, 3, 10, 4, 10, [[0], [1]], []⟩ 0 =
      .ok ⟨1, 3, 10, 4, 10, [[0], [1]], [0]⟩ := by decide
  have hr : knn_query sqEuclidean (set_ef ⟨1, 3, 10, 4, 10, [[0], [1]], [0]⟩ 3)
      [0] 2 = .ok [(1, 1)] := by
    norm_num [knn_query, queryCandidates, rankAll, Index.count, Index.liveIds,
      isLive, sqEuclidean, set_ef, List.insertionSort, List.orderedInsert,
      resOrder, List.range_succ]
  exact ⟨hq,
    (C6_mark_deleted sqEuclidean ⟨1, 3, 10, 4, 10, [[0], [1]], []⟩ 0).1 _ hq,
    hr,
    (C6_mark_deleted sqEuclidean ⟨1, 3, 10, 4, 10, [[0], [1]], []⟩ 0).2.1 _ hq
      3 [0] 2 [(1, 1)] hr 0,
    (C6_mark_deleted sqEuclidean ⟨1, 3, 10, 4, 10, [[0], [1]], []⟩ 5).2.2
      (by decide)⟩

theorem nbrs_lt (g : GraphIndex) (hwf : GraphWF g) (v n : Nat)
    (hn : n ∈ g.nbrs v) : n < g.count := by
  unfold GraphIndex.nbrs at hn
  by_cases hv : v < g.neighbors.length
  · rw [List.getD_eq_getElem?_getD, List.getElem?_eq_getElem hv] at hn
    exact hwf.2 _ (List.getElem_mem hv) n hn
  · rw [List.getD_eq_getElem?_getD, List.getElem?_eq_none (by omega)] at hn
    simp at hn

theorem length_le_of_nodup_lt (n : Nat) (l : List Nat) (hn : l.Nodup)
    (hlt : ∀ i ∈ l, i < n) : l.length ≤ n := by
  have hsub : l ⊆ List.range n := fun i hi => List.mem_range.mpr (hlt i hi)
  have := (List.subperm_of_subset hn hsub).length_le
  simpa using this

theorem mem_of_nodup_bound_full (n : Nat) (l : List Nat) (hn : l.Nodup)
    (hlt : ∀ i ∈ l, i < n) (hlen : n ≤ l.length) : ∀ m < n, m ∈ l := by
  intro m hm
  have hsub : l ⊆ List.range n := fun i hi => List.mem_range.mpr (hlt i hi)
  have hperm : List.Perm l (List.range n) :=
    (List.subperm_of_subset hn hsub).perm_of_length_le (by simpa using hlen)
  exact hperm.mem_iff.mpr (List.mem_range.mpr hm)

theorem post_of_closed (d : Metric) (g : GraphIndex) (q : List ℚ)
    (w : List (Nat × ℚ)) (vis : List Nat)
    (hnodup : vis.Nodup) (hlt : ∀ i ∈ vis, i < g.count)
    (hids : List.Perm (w.map Prod.fst) vis)
    (hdist : ∀ e ∈ w, e.2 = d q (g.vecOf e.1))
    (hsorted : List.Sorted resOrder w)
    (hclosed : ∀ v ∈ vis, ∀ n ∈ g.nbrs v, n ∈ vis) :
    SearchPost d g q vis w := by
  refine ⟨hsorted, hdist, hids.nodup_iff.mpr hnodup, ?_, ?_, ?_⟩
  · intro i hi
    exact hlt i (hids.mem_iff.mp hi)
  · intro v hv
    exact hids.mem_iff.mpr hv
  · intro v hv n hn
    exact hids.mem_iff.mpr (hclosed v (hids.mem_iff.mp hv) n hn)

theorem admitOne_step (d : Metric) (g : GraphIndex) (q : List ℚ) (ef : Nat)
    (st : List (Nat × ℚ) × List (Nat × ℚ) × List Nat) (n : Nat)
    (hef : g.count ≤ ef) (hn : n < g.count)
    (inv : CoreInv d g q st.1 st.2.1 st.2.2) :
    CoreInv d g q (admitOne d g q ef st n).1 (admitOne d g q ef st n).2.1
        (admitOne d g q ef st n).2.2 ∧
      n ∈ (admitOne d g q ef st n).2.2 ∧
      (∀ v ∈ st.2.2, v ∈ (admitOne d g q ef st n).2.2) ∧
      (∀ e ∈ st.1, e ∈ (admitOne d g q ef st n).1) ∧
      (∀ v ∈ (admitOne d g q ef st n).2.2,
        v ∈ st.2.2 ∨ v ∈ (admitOne d g q ef st n).1.map Prod.fst) ∧
      (admitOne d g q ef st n).1.length +
          (g.count - (admitOne d g q ef st n).2.2.length) =
        st.1.length + (g.count - st.2.2.length) := by
  obtain ⟨c, w, vis⟩ := st
  simp only at inv ⊢
  by_cases hv : n ∈ vis
  · simp only [admitOne, if_pos hv]
    exact ⟨inv, hv, fun v hvv => hvv, fun e he => he, fun v hvv => Or.inl hvv,
      trivial⟩
  · have hwlen : w.length = vis.length := by
      have := inv.w_ids.length_eq
      simpa using this
    have hvislt : vis.length + 1 ≤ g.count := by
      have hnodup : (n :: vis).Nodup := List.nodup_cons.mpr ⟨hv, inv.nodup_vis⟩
      have hbound : ∀ i ∈ n :: vis, i < g.count := by
        intro i hi
        rcases List.mem_cons.mp hi with rfl | hi
        · exact hn
        · exact inv.vis_lt i hi
      have := length_le_of_nodup_lt g.count (n :: vis) hnodup hbound
      simpa using this
    have hcond : w.length < ef ∨ d q (g.vecOf n) < worstOf w :=
      Or.inl (by omega)
    have htake : (List.orderedInsert resOrder (n, d q (g.vecOf n)) w).take ef =
        List.orderedInsert resOrder (n, d q (g.vecOf n)) w := by
      apply List.take_of_length_le
      have := (List.perm_orderedInsert resOrder (n, d q (g.vecOf n)) w).length_eq
      simp only [List.length_cons] at this
      omega
    simp only [admitOne, if_neg hv, if_pos hcond, htake]
    refine ⟨?_, List.mem_cons_self n vis, fun v hvv => List.mem_cons_of_mem n hvv,
      fun e he => (List.mem_orderedInsert resOrder).mpr (Or.inr he), ?_, ?_⟩
    · refine
        { nodup_vis := List.nodup_cons.mpr ⟨hv, inv.nodup_vis⟩
          vis_lt := ?_
          w_ids := ?_
          w_dist := ?_
          w_sorted := List.Sorted.orderedInsert _ _ inv.w_sorted
          c_ids := ?_ }
      · intro i hi
        rcases List.mem_cons.mp hi with rfl | hi
        · exact hn
        · exact inv.vis_lt i hi
      · refine List.Perm.trans ?_ (inv.w_ids.cons n)
        have := (List.perm_orderedInsert resOrder (n, d q (g.vecOf n)) w).map
          Prod.fst
        simpa using this
      · intro e he
        rcases (List.mem_orderedInsert resOrder).mp he with rfl | he
        · rfl
        · exact inv.w_dist e he
      · intro e he
        rcases (List.mem_orderedInsert resOrder).mp he with rfl | he
        · exact List.mem_cons_self _ _
        · exact List.mem_cons_of_mem _ (inv.c_ids e he)
    · intro v hvv
      rcases List.mem_cons.mp hvv with rfl | hvv
      · refine Or.inr (List.mem_map.mpr ⟨(v, d q (g.vecOf v)), ?_, rfl⟩)
        exact (List.mem_orderedInsert resOrder).mpr (Or.inl rfl)
      · exact Or.inl hvv
    · have hc := (List.perm_orderedInsert resOrder (n, d q (g.vecOf n)) c).length_eq
      simp only [List.length_cons] at hc
      simp only [hc, List.length_cons]
      omega

theorem foldl_admit_inv (d : Metric) (g : GraphIndex) (q : List ℚ) (ef : Nat)
    (hef : g.count ≤ ef) :
    ∀ (ns : List Nat) (st : List (Nat × ℚ) × List (Nat × ℚ) × List Nat),
    (∀ n ∈ ns, n < g.count) →
    CoreInv d g q st.1 st.2.1 st.2.2 →
    CoreInv d g q (ns.foldl (admitOne d g q ef) st).1
        (ns.foldl (admitOne d g q ef) st).2.1
        (ns.foldl (admitOne d g q ef) st).2.2 ∧
      (∀ n ∈ ns, n ∈ (ns.foldl (admitOne d g q ef) st).2.2) ∧
      (∀ v ∈ st.2.2, v ∈ (ns.foldl (admitOne d g q ef) st).2.2) ∧
      (∀ e ∈ st.1, e ∈ (ns.foldl (admitOne d g q ef) st).1) ∧
      (∀ v ∈ (ns.foldl (admitOne d g q ef) st).2.2,
        v ∈ st.2.2 ∨ v ∈ (ns.foldl (admitOne d g q ef) st).1.map Prod.fst) ∧
      (ns.foldl (admitOne d g q ef) st).1.length +
          (g.count - (ns.foldl (admitOne d g q ef) st).2.2.length) =
        st.1.length + (g.count - st.2.2.length)
  | [], st, _, inv => by
    simp only [List.foldl_nil]
    exact ⟨inv, by simp, fun v hv => hv, fun e he => he, fun v hv => Or.inl hv,
      trivial⟩
  | n :: rest, st, hbound, inv => by
    obtain ⟨inv1, hn1, hmv1, hmc1, hnew1, hms1⟩ :=
      admitOne_step d g q ef st n hef (hbound n (List.mem_cons_self n rest)) inv
    obtain ⟨inv2, hns2, hmv2, hmc2, hnew2, hms2⟩ :=
      foldl_admit_inv d g q ef hef rest (admitOne d g q ef st n)
        (fun m hm => hbound m (List.mem_cons_of_mem n hm)) inv1
    simp only [List.foldl_cons]
    refine ⟨inv2, ?_, ?_, ?_, ?_, ?_⟩
    · intro m hm
      rcases List.mem_cons.mp hm with rfl | hm
      · exact hmv2 m hn1
      · exact hns2 m hm
    · exact fun v hv => hmv2 v (hmv1 v hv)
    · exact fun e he => hmc2 e (hmc1 e he)
    · intro v hv
      rcases hnew2 v hv with hvi | hvc
      · rcases hnew1 v hvi with hvo | hvc1
        · exact Or.inl hvo
        · rcases List.mem_map.mp hvc1 with ⟨e, he, rfl⟩
          exact Or.inr (List.mem_map.mpr ⟨e, hmc2 e he, rfl⟩)
      · exact Or.inr hvc
    · omega

theorem searchLoop_post (d : Metric) (g : GraphIndex) (q : List ℚ) (ef : Nat)
    (hef : g.count ≤ ef) (hwf : GraphWF g) :
    ∀ (fuel : Nat) (c w : List (Nat × ℚ)) (vis : List Nat),
    CoreInv d g q c w vis →
    (∀ v ∈ vis, v ∈ c.map Prod.fst ∨ ∀ n ∈ g.nbrs v, n ∈ vis) →
    c.length + (g.count - vis.length) ≤ fuel →
    SearchPost d g q vis (searchLoop d g q ef fuel c w vis)
  | 0, c, w, vis, inv, hproc, hm => by
    have hc : c = [] := by
      rw [← List.length_eq_zero]
      omega
    subst hc
    simp only [searchLoop]
    refine post_of_closed d g q w vis inv.nodup_vis inv.vis_lt inv.w_ids
      inv.w_dist inv.w_sorted ?_
    intro v hv n hn
    rcases hproc v hv with hvc | hvd
    · simp at hvc
    · exact hvd n hn
  | fuel + 1, [], w, vis, inv, hproc, _ => by
    simp only [searchLoop]
    refine post_of_closed d g q w vis inv.nodup_vis inv.vis_lt inv.w_ids
      inv.w_dist inv.w_sorted ?_
    intro v hv n hn
    rcases hproc v hv with hvc | hvd
    · simp at hvc
    · exact hvd n hn
  | fuel + 1, cand :: crest, w, vis, inv, hproc, hm => by
    by_cases hstop : w.length = ef ∧ worstOf w < cand.2
    · simp only [searchLoop, if_pos hstop]
      have hwlen : w.length = vis.length := by
        simpa using inv.w_ids.length_eq
      have hfull : g.count ≤ vis.length := by omega
      have hmem := mem_of_nodup_bound_full g.count vis inv.nodup_vis
        inv.vis_lt hfull
      refine post_of_closed d g q w vis inv.nodup_vis inv.vis_lt inv.w_ids
        inv.w_dist inv.w_sorted ?_
      intro v _ n hn
      exact hmem n (nbrs_lt g hwf v n hn)
    · have hbound : ∀ n ∈ g.nbrs cand.1, n < g.count :=
        fun n hn => nbrs_lt g hwf cand.1 n hn
      have hinv0 : CoreInv d g q crest w vis :=
        { nodup_vis := inv.nodup_vis, vis_lt := inv.vis_lt,
          w_ids := inv.w_ids, w_dist := inv.w_dist, w_sorted := inv.w_sorted,
          c_ids := fun e he => inv.c_ids e (List.mem_cons_of_mem cand he) }
      obtain ⟨inv2, hns2, hmv2, hmc2, hnew2, hms2⟩ :=
        foldl_admit_inv d g q ef hef (g.nbrs cand.1) (crest, w, vis)
          hbound hinv0
      have hproc2 : ∀ v ∈ ((g.nbrs cand.1).foldl (admitOne d g q ef)
          (crest, w, vis)).2.2,
          v ∈ ((g.nbrs cand.1).foldl (admitOne d g q ef)
            (crest, w, vis)).1.map Prod.fst ∨
          ∀ n ∈ g.nbrs v, n ∈ ((g.nbrs cand.1).foldl (admitOne d g q ef)
            (crest, w, vis)).2.2 := by
        intro v hv
        rcases hnew2 v hv with hvo | hvc
        · rcases hproc v hvo with hvf | hvdone
          · rcases List.mem_map.mp hvf with ⟨e, he, rfl⟩
            rcases List.mem_cons.mp he with rfl | he
            · exact Or.inr (fun n hn => hns2 n hn)
            · exact Or.inl (List.mem_map.mpr ⟨e, hmc2 e he, rfl⟩)
          · exact Or.inr (fun n hn => hmv2 n (hvdone n hn))
        · exact Or.inl hvc
      have hm2 : ((g.nbrs cand.1).foldl (admitOne d g q ef)
          (crest, w, vis)).1.length +
          (g.count - ((g.nbrs cand.1).foldl (admitOne d g q ef)
            (crest, w, vis)).2.2.length) ≤ fuel := by
        simp only [List.length_cons] at hm
        dsimp only at hms2
        omega
      obtain ⟨ih1, ih2, ih3, ih4, ih5, ih6⟩ :=
        searchLoop_post d g q ef hef hwf fuel
          ((g.nbrs cand.1).foldl (admitOne d g q ef) (crest, w, vis)).1
          ((g.nbrs cand.1).foldl (admitOne d g q ef) (crest, w, vis)).2.1
          ((g.nbrs cand.1).foldl (admitOne d g q ef) (crest, w, vis)).2.2
          inv2 hproc2 hm2
      simp only [searchLoop, if_neg hstop]
      exact ⟨ih1, ih2, ih3, ih4, fun v hv => ih5 v (hmv2 v hv), ih6⟩

theorem reaches_set_ef (g : GraphIndex) (e n : Nat) (h : Reaches g n) :
    Reaches (graph_set_ef g e) n := by
  induction h with
  | entry => exact Reaches.entry
  | step _ hb ih => exact Reaches.step ih hb

theorem search_layer_exhaustive (d : Metric) (g : GraphIndex) (q : List ℚ)
    (ef : Nat) (hef : g.count ≤ ef) (hwf : GraphWF g)
    (hreach : ∀ n < g.count, Reaches g n) :
    search_layer d g q ef = graph_rankAll d g q := by
  have hcpos : 0 < g.count := Nat.lt_of_le_of_lt (Nat.zero_le _) hwf.1
  have htake : ([(g.entry, d q (g.vecOf g.entry))] : List (Nat × ℚ)).take ef =
      [(g.entry, d q (g.vecOf g.entry))] :=
    List.take_of_length_le (by simp only [List.length_singleton]; omega)
  have hinv : CoreInv d g q [(g.entry, d q (g.vecOf g.entry))]
      [(g.entry, d q (g.vecOf g.entry))] [g.entry] :=
    { nodup_vis := List.nodup_singleton _
      vis_lt := by
        intro i hi
        rw [List.mem_singleton] at hi
        subst hi
        exact hwf.1
      w_ids := by simp
      w_dist := by
        intro e he
        rw [List.mem_singleton] at he
        subst he
        rfl
      w_sorted := List.sorted_singleton _
      c_ids := by
        intro e he
        rw [List.mem_singleton] at he
        subst he
        simp }
  have hproc : ∀ v ∈ ([g.entry] : List Nat),
      v ∈ ([(g.entry, d q (g.vecOf g.entry))] : List (Nat × ℚ)).map Prod.fst ∨
      ∀ n ∈ g.nbrs v, n ∈ ([g.entry] : List Nat) := by
    intro v hv
    left
    simpa using hv
  have hmeas : ([(g.entry, d q (g.vecOf g.entry))] : List (Nat × ℚ)).length +
      (g.count - ([g.entry] : List Nat).length) ≤ g.count + 1 := by
    simp only [List.length_singleton]
    omega
  obtain ⟨hs, hd2, hnd, hlt, hsub, hclosed⟩ :=
    searchLoop_post d g q ef hef hwf (g.count + 1)
      [(g.entry, d q (g.vecOf g.entry))] [(g.entry, d q (g.vecOf g.entry))]
      [g.entry] hinv hproc hmeas
  unfold search_layer
  rw [htake]
  have hreachmem : ∀ n, Reaches g n →
      n ∈ (searchLoop d g q ef (g.count + 1)
        [(g.entry, d q (g.vecOf g.entry))]
        [(g.entry, d q (g.vecOf g.entry))] [g.entry]).map Prod.fst := by
    intro n h
    induction h with
    | entry => exact hsub g.entry (List.mem_singleton_self _)
    | step _ hb ih => exact hclosed _ ih _ hb
  have hperm : List.Perm ((searchLoop d g q ef (g.count + 1)
      [(g.entry, d q (g.vecOf g.entry))]
      [(g.entry, d q (g.vecOf g.entry))] [g.entry]).map Prod.fst)
      (List.range g.count) :=
    List.Subperm.antisymm
      (List.subperm_of_subset hnd (fun i hi => List.mem_range.mpr (hlt i hi)))
      (List.subperm_of_subset (List.nodup_range _)
        (fun i hi => hreachmem i (hreach i (List.mem_range.mp hi))))
  have hWeq : (searchLoop d g q ef (g.count + 1)
      [(g.entry, d q (g.vecOf g.entry))]
      [(g.entry, d q (g.vecOf g.entry))] [g.entry]).map
        (fun e : Nat × ℚ => (e.1, d q (g.vecOf e.1))) =
      searchLoop d g q ef (g.count + 1)
        [(g.entry, d q (g.vecOf g.entry))]
        [(g.entry, d q (g.vecOf g.entry))] [g.entry] := by
    have h1 := List.map_congr_left
      (l := searchLoop d g q ef (g.count + 1)
        [(g.entry, d q (g.vecOf g.entry))]
        [(g.entry, d q (g.vecOf g.entry))] [g.entry])
      (f := fun e : Nat × ℚ => (e.1, d q (g.vecOf e.1))) (g := id)
      (fun e he => by
        dsimp only
        rw [← hd2 e he]
        rfl)
    rw [h1, List.map_id]
  have hperm2 : List.Perm (searchLoop d g q ef (g.count + 1)
      [(g.entry, d q (g.vecOf g.entry))]
      [(g.entry, d q (g.vecOf g.entry))] [g.entry])
      ((List.range g.count).map (fun i => (i, d q (g.vecOf i)))) := by
    have h2 := hperm.map (fun i => (i, d q (g.vecOf i)))
    rw [List.map_map, Function.comp_def] at h2
    rw [hWeq] at h2
    exact h2
  exact List.eq_of_perm_of_sorted
    (hperm2.trans (List.perm_insertionSort resOrder _).symm) hs
    (List.sorted_insertionSort resOrder _)

/-- C7 counterexample: on the well-formed, entry-connected six-node
graph `exGraph`, raising `ef_search` from 2 to 3 strictly lowers the
true-positive overlap of the query result with the brute-force top-1
from 1 to 0. At width 3 the search admits node 2 (the retained set is
not yet full), node 2's expansion fills the retained set with nearer
nodes, and the tightened worst-retained bound prunes the frontier entry
(node 4) that leads to the true nearest neighbor (node 3); at width 2
node 2 is rejected, node 4 is expanded, and node 3 is found. -/
theorem C7_counterexample :
    (2 : Nat) ≤ 3 ∧
      overlap (graph_query sqEuclidean (graph_set_ef exGraph 2) [8] 1)
          (graph_bruteTopK sqEuclidean (graph_set_ef exGraph 2) [8] 1) = 1 ∧
      overlap (graph_query sqEuclidean (graph_set_ef exGraph 3) [8] 1)
          (graph_bruteTopK sqEuclidean (graph_set_ef exGraph 3) [8] 1) = 0 := by
  refine ⟨by omega, ?_, ?_⟩ <;>
    norm_num [graph_query, graph_set_ef, search_layer, searchLoop, admitOne,
      worstOf, GraphIndex.nbrs, GraphIndex.vecOf, GraphIndex.count, exGraph,
      graph_bruteTopK, graph_rankAll, overlap, sqEuclidean, resOrder,
      List.insertionSort, List.orderedInsert, List.range_succ]

/-- C7 (amended): for the faithful section-4.4 beam search, raising
`ef_search` does not preserve recall pointwise (see the counterexample).
What does hold is that no width beats the exhaustive one: once
`ef_search` reaches the number of stored elements — every node being
reachable from the entry point — the query returns the brute-force
top-k itself, so its overlap is maximal over all `ef_search`
settings. -/
theorem C7_recall_exhaustive (d : Metric) (g : GraphIndex) (q : List ℚ)
    (k ef ef' : Nat) (hwf : GraphWF g)
    (hreach : ∀ n < g.count, Reaches g n)
    (hk : k ≤ g.count) (hef' : g.count ≤ ef') :
    overlap (graph_query d (graph_set_ef g ef) q k)
        (graph_bruteTopK d g q k) ≤
      overlap (graph_query d (graph_set_ef g ef') q k)
        (graph_bruteTopK d g q k) := by
  have hwf' : GraphWF (graph_set_ef g ef') := hwf
  have hreach' : ∀ n < (graph_set_ef g ef').count,
      Reaches (graph_set_ef g ef') n :=
    fun n hn => reaches_set_ef g ef' n (hreach n hn)
  have hsl : search_layer d (graph_set_ef g ef') q
      (max (graph_set_ef g ef').efSearch k) =
      graph_rankAll d (graph_set_ef g ef') q :=
    search_layer_exhaustive d (graph_set_ef g ef') q _
      (Nat.le_trans hef' (Nat.le_max_left ef' k)) hwf' hreach'
  have hR : graph_query d (graph_set_ef g ef') q k =
      graph_bruteTopK d g q k := by
    unfold graph_query graph_bruteTopK
    exact congrArg (List.take k) hsl
  have hRlen : (graph_bruteTopK d g q k).length = k := by
    unfold graph_bruteTopK graph_rankAll
    simp only [List.length_take, List.length_insertionSort, List.length_map,
      List.length_range]
    omega
  have hov2 : overlap (graph_bruteTopK d g q k) (graph_bruteTopK d g q k) =
      (graph_bruteTopK d g q k).length := by
    have hall : ∀ e ∈ graph_bruteTopK d g q k,
        decide (e.1 ∈ (graph_bruteTopK d g q k).map Prod.fst) = true := by
      intro e he
      simp only [decide_eq_true_eq]
      exact List.mem_map_of_mem Prod.fst he
    unfold overlap
    rw [List.filter_eq_self.mpr hall]
  have hov1 : overlap (graph_query d (graph_set_ef g ef) q k)
      (graph_bruteTopK d g q k) ≤ k := by
    have h1 : overlap (graph_query d (graph_set_ef g ef) q k)
        (graph_bruteTopK d g q k) ≤
        (graph_query d (graph_set_ef g ef) q k).length :=
      List.length_filter_le _ _
    have h2 : (graph_query d (graph_set_ef g ef) q k).length ≤ k := by
      unfold graph_query
      exact List.length_take_le _ _
    omega
  rw [hR, hov2, hRlen]
  exact hov1

/-- C7 witness (amended claim): a two-node path graph — raising
`ef_search` from 1 to the store size 2 does not lower the overlap. -/
theorem C7_recall_exhaustive_witness :
    GraphWF ⟨1, 1, [[0], [1]], [[1], [0]], 0⟩ ∧
      overlap (graph_query sqEuclidean
            (graph_set_ef ⟨1, 1, [[0], [1]], [[1], [0]], 0⟩ 1) [0] 1)
          (graph_bruteTopK sqEuclidean
            ⟨1, 1, [[0], [1]], [[1], [0]], 0⟩ [0] 1) ≤
        overlap (graph_query sqEuclidean
              (graph_set_ef ⟨1, 1, [[0], [1]], [[1], [0]], 0⟩ 2) [0] 1)
          (graph_bruteTopK sqEuclidean
            ⟨1, 1, [[0], [1]], [[1], [0]], 0⟩ [0] 1) := by
  refine ⟨by decide, ?_⟩
  refine C7_recall_exhaustive sqEuclidean ⟨1, 1, [[0], [1]], [[1], [0]], 0⟩
    [0] 1 1 2 (by decide) ?_ (by decide) (by decide)
  intro n hn
  have hn2 : n = 0 ∨ n = 1 := by
    simp only [GraphIndex.count, List.length_cons, List.length_nil] at hn
    omega
  rcases hn2 with rfl | rfl
  · exact Reaches.entry
  · exact Reaches.step Reaches.entry (by decide)

/-- C8: the cosine metric computes `1 - cosine_similarity` on every
pair of vectors with nonzero norms, and returns the defined sentinel
distance 1 whenever either input has zero norm (the zero vector),
instead of a division-by-zero failure. -/
theorem C8_cosine :
    (∀ u v : List ℝ, sumSq u ≠ 0 → sumSq v ≠ 0 →
      cosine_distance u v = 1 - cosine_similarity u v) ∧
    (∀ u v : List ℝ, sumSq u = 0 ∨ sumSq v = 0 → cosine_distance u v = 1) := by
  constructor
  · intro u v hu hv
    unfold cosine_distance
    rw [if_neg (by tauto)]
  · intro u v h
    unfold cosine_distance
    rw [if_pos h]

/-- C8 witness: the one-dimensional vectors (1) and (0). -/
theorem C8_cosine_witness :
    sumSq [(1 : ℝ)] ≠ 0 ∧
      cosine_distance [(1 : ℝ)] [1] = 1 - cosine_similarity [1] [1] ∧
      cosine_distance [(0 : ℝ)] [1] = 1 := by
  have h1 : sumSq [(1 : ℝ)] ≠ 0 := by norm_num [sumSq]
  exact ⟨h1, C8_cosine.1 [1] [1] h1 h1,
    C8_cosine.2 [0] [1] (Or.inl (by norm_num [sumSq]))⟩

/-- C9: bulk `add_items` on a fresh index coincides with appending the
rows one at a time in order (labels are the row indices 0..n-1), and
every label a query can later return is below n. -/
theorem C9_bulk_equiv (dim n efC M : Nat) (rows : List (List ℚ))
    (hdim : ∀ r ∈ rows, r.length = dim) :
    add_items (init_index dim n efC M) rows =
      add_items_atOnce (init_index dim n efC M) rows ∧
    (rows.length ≤ n →
      ∃ q, add_items (init_index dim n efC M) rows = .ok q ∧
        q.vectors = rows ∧
        ∀ (d : Metric) (v : List ℚ) (k : Nat) (r : List (Nat × ℚ)),
          knn_query d q v k = .ok r → ∀ e ∈ r, e.1 < rows.length) := by
  constructor
  · exact add_items_eq_atOnce _ rows hdim (by simp [init_index, Index.count])
  · intro hle
    have hok := add_items_ok rows (init_index dim n efC M) hdim
      (by simp only [init_index, Index.count, List.length_nil]; omega)
    refine ⟨_, hok, by simp [init_index], ?_⟩
    intro d v k r hr e he
    rw [knn_query_ok_inv d _ v k r hr] at he
    have h4 := rankAll_fst_lt d _ v e ((queryResult_sublist d _ v k).subset he)
    simpa [Index.count, init_index] using h4

/-- C9 witness: two one-dimensional rows inserted into a fresh
capacity-2 index. -/
theorem C9_bulk_equiv_witness :
    add_items (init_index 1 2 20 4) [[0], [1]] =
      add_items_atOnce (init_index 1 2 20 4) [[0], [1]] ∧
    ∃ q, add_items (init_index 1 2 20 4) [[0], [1]] = .ok q ∧
      q.vectors = [[0], [1]] ∧
      ∀ (d : Metric) (v : List ℚ) (k : Nat) (r : List (Nat × ℚ)),
        knn_query d q v k = .ok r → ∀ e ∈ r, e.1 < 2 :=
  ⟨(C9_bulk_equiv 1 2 20 4 [[0], [1]] (by decide)).1,
   (C9_bulk_equiv 1 2 20 4 [[0], [1]] (by decide)).2 (by decide)⟩

/-- C10: whenever the query vector has the index dimension, k is
positive and at most the live count (as in the script: 10000 live
elements, ef_search 50, k = 5), the query succeeds and returns exactly
k pairs, every label a stored internal id, with distances in
nondecreasing order. -/
theorem C10_script_scenario (d : Metric) (p : Index) (v : List ℚ) (k : Nat)
    (hdim : v.length = p.dim) (hk : 0 < k) (hlive : k ≤ p.liveIds.length)
    (_hef : k ≤ p.efSearch) :
    ∃ r, knn_query d p v k = .ok r ∧ r.length = k ∧
      (∀ e ∈ r, e.1 < p.count) ∧
      List.Pairwise (fun a b : Nat × ℚ => a.2 ≤ b.2) r := by
  have hne : p.liveIds.length ≠ 0 := by omega
  refine ⟨_, knn_query_ok d p v k hdim hne, ?_, ?_,
    queryResult_dist_mono d p v k⟩
  · rw [List.length_take, filter_live_length]
    omega
  · intro e he
    exact rankAll_fst_lt d p v e ((queryResult_sublist d p v k).subset he)

/-- C10 witness: three stored vectors, ef_search 50, k = 2. -/
theorem C10_script_scenario_witness :
    ∃ r, knn_query sqEuclidean ⟨1, 5, 10, 4, 50, [[0], [1], [2]], []⟩
        [0] 2 = .ok r ∧ r.length = 2 ∧
      (∀ e ∈ r, e.1 < 3) ∧
      List.Pairwise (fun a b : Nat × ℚ => a.2 ≤ b.2) r :=
  C10_script_scenario sqEuclidean ⟨1, 5, 10, 4, 50, [[0], [1], [2]], []⟩
    [0] 2 (by decide) (by decide) (by decide) (by decide)

end HnswSpec
